import Mathlib

/-!
Shallow embedding of `src/v5app.py` (order fulfillment reconciliation).

Part 2 of the script (`parse_label` and `process_orders`) is embedded:
labels are parsed into (barcode, quantity) line items, and rows are
classified into Fulfillable / Unfulfillable / Misc while greedily
reserving stock from an in-memory ledger.

Strings are Lean `String`s; the Python dictionaries `stock` and
`sku_dict` are association lists with insertion-order semantics
(overwrite in place, append new keys). Python `int` is `Int`.
-/

set_option autoImplicit false

namespace V5App

/-- Whitespace characters removed by Python `str.strip` / matched by `\s`
(space, tab, newline, carriage return, form feed, vertical tab). -/
def isSpace (c : Char) : Bool :=
  c = ' ' || c = '\t' || c = '\n' || c = '\r' || c = '\x0b' || c = '\x0c'

/-- Strip leading whitespace. -/
def trimLeft (cs : List Char) : List Char := cs.dropWhile isSpace

/-- Strip trailing whitespace. -/
def trimRight (cs : List Char) : List Char := (trimLeft cs.reverse).reverse

/-- Python `str.strip()`. -/
def trim (cs : List Char) : List Char := trimRight (trimLeft cs)

/-- Scan for the first position where the regex fragment `.*?\]/\[` can end:
the first `]` immediately followed by `/[`, with no newline before it
(`.` does not match a newline). Returns the remainder after `]/[`. -/
def findBrk1 : List Char → Option (List Char)
  | ']' :: '/' :: '[' :: rest => some rest
  | '\n' :: _ => none
  | _ :: cs => findBrk1 cs
  | [] => none

/-- Scan for the first `]` (closing the second bracket group, regex
fragment `.*?\]`), with no newline before it. Returns the remainder. -/
def findBrk2 : List Char → Option (List Char)
  | ']' :: rest => some rest
  | '\n' :: _ => none
  | _ :: cs => findBrk2 cs
  | [] => none

/-- `re.search(r'^\[.*?\]/\[.*?\]\s*(.*)$', s)`: the string must start with
`[`, contain the leftmost-shortest `]/[` and a following `]`, then after
greedily skipping whitespace the rest (group 1) may not contain a newline.
Returns group 1. -/
def matchHeader (s : List Char) : Option (List Char) :=
  match s with
  | '[' :: rest =>
    match findBrk1 rest with
    | some r2 =>
      match findBrk2 r2 with
      | some r3 =>
        let g1 := r3.dropWhile isSpace
        if g1.contains '\n' then none else some g1
      | none => none
    | none => none
  | _ => none

/-- `re.split(r'\s*,\s*', content)`: split on commas. Since `content` is
stripped and the regex eats whitespace around each comma, each part is
trimmed by the caller via `trim`. -/
def splitComma : List Char → List (List Char)
  | [] => [[]]
  | ',' :: cs => [] :: splitComma cs
  | c :: cs =>
    match splitComma cs with
    | p :: ps => (c :: p) :: ps
    | [] => [[c]]

/-- Split at the first `*`, returning (before, after); `none` if no `*`. -/
def breakFirstStar : List Char → Option (List Char × List Char)
  | [] => none
  | '*' :: cs => some ([], cs)
  | c :: cs => (breakFirstStar cs).map (fun p => (c :: p.1, p.2))

/-- Python `part.rsplit('*', 1)`: split at the last `*`;
`none` when `'*' not in part`. -/
def breakLastStar (cs : List Char) : Option (List Char × List Char) :=
  (breakFirstStar cs.reverse).map (fun p => (p.2.reverse, p.1.reverse))

/-- Value of a string of decimal digits (Python `int(qty_str)`). -/
def digitsVal (cs : List Char) : Nat :=
  cs.foldl (fun n c => 10 * n + (c.toNat - 48)) 0

/-- One token of the comma-separated content: `barcode * qty` with the split
at the last `*`, both sides stripped, and the quantity one or more decimal
digits (`qty_str.isdigit()`). `none` models `return []` for the whole label. -/
def parseToken (part : List Char) : Option (String × Int) :=
  match breakLastStar part with
  | none => none
  | some (b, q) =>
    let b := trim b
    let q := trim q
    if q ≠ [] ∧ q.all Char.isDigit then
      some (String.mk b, Int.ofNat (digitsVal q))
    else none

/-- All tokens must parse; a single failure invalidates the whole list. -/
def parseTokens : List (List Char) → Option (List (String × Int))
  | [] => some []
  | p :: ps =>
    match parseToken p with
    | none => none
    | some it => (parseTokens ps).map (fun l => it :: l)

/-- `parse_label` from `process_orders`: strip the label, match the
`[..]/[..]` header, strip the content, split on commas, and parse every
token; any failure yields `[]`. -/
def parse_label (label : String) : List (String × Int) :=
  match matchHeader (trim label.data) with
  | none => []
  | some g1 =>
    let content := trim g1
    if content = [] then []
    else
      match parseTokens ((splitComma content).map trim) with
      | none => []
      | some orders => orders

/-- One order row: `custom_label` plus pass-through data (modelled by `id`). -/
structure Row where
  id : Nat
  custom_label : String
deriving DecidableEq

/-- Python `bc and bc[0].isdigit()`: nonempty and first char a digit. -/
def firstIsDigit (s : String) : Bool :=
  match s.data with
  | [] => false
  | c :: _ => c.isDigit

/-- Classification of one row. -/
inductive Outcome where
  | fulfillable (ann : String)
  | unfulfillable
  | misc
deriving DecidableEq

/-- The `stock` dictionary: barcode to remaining quantity. -/
abbrev Ledger := List (String × Int)

/-- The `sku_dict` dictionary: barcode to SKU. -/
abbrev SkuMap := List (String × String)

/-- First-match association-list lookup (Python `d[k]` / `k in d`). -/
def lookupL {β : Type} : List (String × β) → String → Option β
  | [], _ => none
  | e :: t, key => if e.1 = key then some e.2 else lookupL t key

/-- `all(bc in stock and stock[bc] >= q for bc, q in orders)`. -/
def canFulfill (stock : Ledger) (orders : List (String × Int)) : Bool :=
  orders.all (fun p =>
    match lookupL stock p.1 with
    | some v => p.2 ≤ v
    | none => false)

/-- `stock[bc] -= q` (dictionary update of one key). -/
def decOne (stock : Ledger) (bc : String) (q : Int) : Ledger :=
  stock.map (fun e => if e.1 = bc then (e.1, e.2 - q) else e)

/-- `for bc, q in orders: stock[bc] -= q`. -/
def decAll (stock : Ledger) (orders : List (String × Int)) : Ledger :=
  orders.foldl (fun s p => decOne s p.1 p.2) stock

/-- `sku_dict.get(bc, 'UNKNOWN')`. -/
def skuOf (sku : SkuMap) (bc : String) : String :=
  (lookupL sku bc).getD "UNKNOWN"

/-- The `sku_qty` string: `', '.join(f"{sku}*{q}" ...)`. -/
def mkAnn (sku : SkuMap) (orders : List (String × Int)) : String :=
  String.intercalate ", " (orders.map (fun p => skuOf sku p.1 ++ "*" ++ toString p.2))

/-- The body of the per-row loop of `process_orders`: parse the label,
route empty parses and non-digit-leading barcodes to Misc, otherwise check
fulfillability against the current ledger, decrementing it on success. -/
def stepRow (stock : Ledger) (sku : SkuMap) (row : Row) : Ledger × Outcome :=
  let orders := parse_label row.custom_label
  if orders = [] then (stock, Outcome.misc)
  else if orders.any (fun p => !(firstIsDigit p.1)) then (stock, Outcome.misc)
  else if canFulfill stock orders then
    (decAll stock orders, Outcome.fulfillable (mkAnn sku orders))
  else (stock, Outcome.unfulfillable)

/-- The row loop of `process_orders`: rows in order, threading the ledger,
appending each row to exactly one of the three output tables (fulfillable
rows carry their `sku_qty` annotation). -/
def processCore (stock : Ledger) (sku : SkuMap) :
    List Row → List (Row × String) × List Row × List Row × Ledger
  | [] => ([], [], [], stock)
  | r :: rs =>
    let s1 := stepRow stock sku r
    let rest := processCore s1.1 sku rs
    match s1.2 with
    | Outcome.fulfillable ann => ((r, ann) :: rest.1, rest.2.1, rest.2.2.1, rest.2.2.2)
    | Outcome.unfulfillable => (rest.1, r :: rest.2.1, rest.2.2.1, rest.2.2.2)
    | Outcome.misc => (rest.1, rest.2.1, r :: rest.2.2.1, rest.2.2.2)

/-- One inventory record from `full_items.json`:
`barcode` (may be absent or empty), `quantity`, `sku`. -/
structure Item where
  barcode : Option String
  quantity : Int
  sku : String
deriving DecidableEq

/-- Dictionary store `d[k] = v`: overwrite in place, append new keys. -/
def insertL {β : Type} (l : List (String × β)) (k : String) (v : β) : List (String × β) :=
  if (lookupL l k).isSome then l.map (fun e => if e.1 = k then (k, v) else e)
  else l ++ [(k, v)]

/-- One iteration of the inventory-loading loop: records whose `barcode`
is missing or empty (falsy) are skipped; the rest populate `stock` and
`sku_dict`. -/
def loadStep (acc : Ledger × SkuMap) (it : Item) : Ledger × SkuMap :=
  match it.barcode with
  | some b => if b ≠ "" then (insertL acc.1 b it.quantity, insertL acc.2 b it.sku) else acc
  | none => acc

/-- The inventory-loading loop over `full_items.json`. -/
def loadInv (items : List Item) : Ledger × SkuMap :=
  items.foldl loadStep ([], [])

/-- `process_orders` on materialized inputs: build the ledger, abort with
no outputs (`none`) when it is empty, otherwise run the row loop. -/
def process_orders (items : List Item) (rows : List Row) :
    Option (List (Row × String) × List Row × List Row × Ledger) :=
  let inv := loadInv items
  if inv.1 = [] then none else some (processCore inv.1 inv.2 rows)

/-- A token is rejected when it lacks a `*` separator, or its quantity
portion (after the last `*`, stripped) is empty or not purely decimal
digits. Spelled out independently to characterize `parseToken`. -/
def tokenBad (p : List Char) : Bool :=
  match breakLastStar p with
  | none => true
  | some bq => (trim bq.2).isEmpty || !((trim bq.2).all Char.isDigit)

/-- A label is invalid (parses to `[]`) when the `[..]/[..]` header is
absent, the content after it is empty, or some comma-separated token is
bad. Spelled out independently to characterize `parse_label`. -/
def labelBad (label : String) : Bool :=
  match matchHeader (trim label.data) with
  | none => true
  | some g1 =>
    let content := trim g1
    content.isEmpty || ((splitComma content).map trim).any tokenBad

/-- The value of a good token: barcode before the last `*` and digits
after it, both stripped. -/
def tokenVal (p : List Char) : String × Int :=
  match breakLastStar p with
  | some bq => (String.mk (trim bq.1), Int.ofNat (digitsVal (trim bq.2)))
  | none => ("", 0)

/-- All remaining quantities in the ledger are non-negative. -/
def entriesNonneg (stock : Ledger) : Prop :=
  ∀ e ∈ stock, 0 ≤ e.2

instance entriesNonneg_decidable (stock : Ledger) : Decidable (entriesNonneg stock) :=
  inferInstanceAs (Decidable (∀ e ∈ stock, 0 ≤ e.2))

/-- Python truthiness of `item.get('barcode')`. -/
def hasBarcode (it : Item) : Bool :=
  match it.barcode with
  | some b => b != ""
  | none => false

/-! Inversion lemmas for one step of the row loop. -/

theorem stepRow_fulfillable_inv (stock : Ledger) (sku : SkuMap) (row : Row)
    (s2 : Ledger) (ann : String)
    (h : stepRow stock sku row = (s2, Outcome.fulfillable ann)) :
    canFulfill stock (parse_label row.custom_label) = true
    ∧ s2 = decAll stock (parse_label row.custom_label)
    ∧ ann = mkAnn sku (parse_label row.custom_label) := by
  simp only [stepRow] at h
  split_ifs at h with h1 h2 h3
  · simp at h
  · simp at h
  · injection h with ha hb
    injection hb with hc
    exact ⟨h3, ha.symm, hc.symm⟩
  · simp at h

theorem stepRow_unfulfillable_inv (stock : Ledger) (sku : SkuMap) (row : Row)
    (s2 : Ledger)
    (h : stepRow stock sku row = (s2, Outcome.unfulfillable)) :
    s2 = stock ∧ canFulfill stock (parse_label row.custom_label) = false := by
  simp only [stepRow] at h
  split_ifs at h with h1 h2 h3
  · simp at h
  · simp at h
  · simp at h
  · injection h with ha hb
    exact ⟨ha.symm, by simpa using h3⟩

theorem stepRow_stock_cases (stock : Ledger) (sku : SkuMap) (row : Row) :
    (stepRow stock sku row).1 = decAll stock (parse_label row.custom_label)
    ∨ (stepRow stock sku row).1 = stock := by
  simp only [stepRow]
  split_ifs <;> simp

/-- C7: a row that parses, passes the digit heuristic, and fails the
fulfillability check is emitted to Unfulfillable and the stock ledger is
exactly the same after the row as before it (every entry unchanged). -/
theorem unfulfillable_leaves_ledger_unchanged (stock : Ledger) (sku : SkuMap) (row : Row)
    (h1 : parse_label row.custom_label ≠ [])
    (h2 : (parse_label row.custom_label).any (fun p => !(firstIsDigit p.1)) = false)
    (h3 : canFulfill stock (parse_label row.custom_label) = false) :
    stepRow stock sku row = (stock, Outcome.unfulfillable)
    ∧ (stepRow stock sku row).1 = stock
    ∧ ∀ e, e ∈ (stepRow stock sku row).1 ↔ e ∈ stock := by
  have hs : stepRow stock sku row = (stock, Outcome.unfulfillable) := by
    simp only [stepRow]
    rw [if_neg h1, if_neg (by simp [h2]), if_neg (by simp [h3])]
  exact ⟨hs, by rw [hs], by rw [hs]; simp⟩

theorem unfulfillable_leaves_ledger_unchanged_witness :
    stepRow [("1", 1)] [] ⟨0, "[x]/[y] 1*5"⟩ = ([("1", 1)], Outcome.unfulfillable) :=
  (unfulfillable_leaves_ledger_unchanged [("1", 1)] [] ⟨0, "[x]/[y] 1*5"⟩
    (by decide) (by decide) (by decide)).1

/-- C4: when a label parses but some extracted barcode is empty or does
not start with a decimal digit, the row is emitted to Misc and the ledger
is untouched, regardless of ledger contents; in particular the label
`"[x]/[y] NOTE*2"` is always Misc. -/
theorem nondigit_barcode_routes_to_misc :
    (∀ (stock : Ledger) (sku : SkuMap) (row : Row),
      parse_label row.custom_label ≠ [] →
      (∃ p ∈ parse_label row.custom_label,
        p.1 = "" ∨ ∃ c cs, (p.1).data = c :: cs ∧ c.isDigit = false) →
      stepRow stock sku row = (stock, Outcome.misc))
    ∧ ∀ (stock : Ledger) (sku : SkuMap) (n : Nat),
      stepRow stock sku ⟨n, "[x]/[y] NOTE*2"⟩ = (stock, Outcome.misc) := by
  constructor
  · intro stock sku row hne hbad
    obtain ⟨p, hp, hcase⟩ := hbad
    have hfd : firstIsDigit p.1 = false := by
      rcases hcase with hempty | ⟨c, cs, hdata, hc⟩
      · simp [firstIsDigit, hempty]
      · simp [firstIsDigit, hdata, hc]
    have hany : (parse_label row.custom_label).any (fun p => !(firstIsDigit p.1)) = true :=
      List.any_eq_true.mpr ⟨p, hp, by simp [hfd]⟩
    simp only [stepRow]
    rw [if_neg hne, if_pos hany]
  · intro stock sku n
    have hp : parse_label "[x]/[y] NOTE*2" = [("NOTE", 2)] := by decide
    have hany : ([(("NOTE" : String), (2 : Int))].any (fun p => !(firstIsDigit p.1))) = true := by
      decide
    simp only [stepRow]
    rw [hp]
    rw [if_neg (by simp), if_pos hany]

theorem nondigit_barcode_routes_to_misc_witness :
    stepRow [("1", 5)] [] ⟨0, "[x]/[y] NOTE*2"⟩ = ([("1", 5)], Outcome.misc) :=
  nondigit_barcode_routes_to_misc.1 [("1", 5)] [] ⟨0, "[x]/[y] NOTE*2"⟩
    (by decide) ⟨("NOTE", 2), by decide, Or.inr ⟨'N', ['O', 'T', 'E'], by decide, by decide⟩⟩

/-- C6: every row classified Fulfillable is emitted with its `sku_qty`
annotation equal to the comma-space-joined `"<SKU>*<qty>"` string over its
line items in order, looked up in `sku_dict` (with `"UNKNOWN"` fallback);
concretely, from one inventory item `(barcode "111222", qty 10, sku
"SKU-A")` and the label `"[a]/[b] 111222*4"` the run emits the row as
Fulfillable with `sku_qty = "SKU-A*4"` and leaves barcode `111222` at
quantity 6. -/
theorem fulfillable_sku_qty_field :
    (∀ (stock : Ledger) (sku : SkuMap) (row : Row) (s2 : Ledger) (ann : String),
      stepRow stock sku row = (s2, Outcome.fulfillable ann) →
      ann = mkAnn sku (parse_label row.custom_label)
      ∧ ann = String.intercalate ", "
          ((parse_label row.custom_label).map (fun p => skuOf sku p.1 ++ "*" ++ toString p.2)))
    ∧ process_orders [⟨some "111222", 10, "SKU-A"⟩] [⟨0, "[a]/[b] 111222*4"⟩]
        = some ([(⟨0, "[a]/[b] 111222*4"⟩, "SKU-A*4")], [], [], [("111222", 6)]) := by
  constructor
  · intro stock sku row s2 ann h
    have := (stepRow_fulfillable_inv stock sku row s2 ann h).2.2
    exact ⟨this, by rw [this]; rfl⟩
  · decide

theorem fulfillable_sku_qty_field_witness :
    ("S*2" : String) = mkAnn [("1", "S")] (parse_label "[a]/[b] 1*2")
    ∧ ("S*2" : String) = String.intercalate ", "
        ((parse_label "[a]/[b] 1*2").map (fun p => skuOf [("1", "S")] p.1 ++ "*" ++ toString p.2)) :=
  fulfillable_sku_qty_field.1 [("1", 5)] [("1", "S")] ⟨0, "[a]/[b] 1*2"⟩
    [("1", 3)] "S*2" (by decide)

/-! Lemmas about the inventory-loading loop. -/

theorem loadStep_skip (acc : Ledger × SkuMap) (it : Item) (h : hasBarcode it = false) :
    loadStep acc it = acc := by
  unfold loadStep
  unfold hasBarcode at h
  cases hb : it.barcode with
  | none => rfl
  | some b =>
    rw [hb] at h
    have hb2 : b = "" := by simpa using h
    simp [hb2]

theorem foldl_loadStep_filter (items : List Item) :
    ∀ acc, items.foldl loadStep acc = (items.filter hasBarcode).foldl loadStep acc := by
  induction items with
  | nil => intro acc; rfl
  | cons it t ih =>
    intro acc
    by_cases h : hasBarcode it = true
    · simp [List.filter_cons, h, List.foldl_cons, ih]
    · have h' : hasBarcode it = false := by simpa using h
      simp [List.filter_cons, h', List.foldl_cons, ih, loadStep_skip acc it h']

/-- C9: inventory records without a (truthy) barcode are skipped when the
ledger is built, and when the resulting ledger is empty the run aborts
with no outputs at all, whatever the order rows are. -/
theorem empty_inventory_aborts :
    (∀ items : List Item, loadInv items = loadInv (items.filter hasBarcode))
    ∧ ∀ (items : List Item) (rows : List Row),
      (loadInv items).1 = [] → process_orders items rows = none := by
  constructor
  · intro items
    unfold loadInv
    rw [foldl_loadStep_filter]
  · intro items rows h
    simp [process_orders, h]

theorem empty_inventory_aborts_witness :
    process_orders [⟨none, 3, "S"⟩, ⟨some "", 4, "T"⟩] [⟨0, "[a]/[b] 1*1"⟩] = none :=
  empty_inventory_aborts.2 [⟨none, 3, "S"⟩, ⟨some "", 4, "T"⟩] [⟨0, "[a]/[b] 1*1"⟩]
    (by decide)

/-- C2: every run partitions the input rows: the set sizes add up to the
number of input rows, each outcome set lists its rows in input order (it
is a sublist of the input), and the concatenation of the three sets is a
permutation of the input, so every row lands in exactly one set. -/
theorem run_partitions_rows (stock : Ledger) (sku : SkuMap) (rows : List Row) :
    (processCore stock sku rows).1.length + (processCore stock sku rows).2.1.length
        + (processCore stock sku rows).2.2.1.length = rows.length
    ∧ ((processCore stock sku rows).1.map Prod.fst).Sublist rows
    ∧ (processCore stock sku rows).2.1.Sublist rows
    ∧ (processCore stock sku rows).2.2.1.Sublist rows
    ∧ ((processCore stock sku rows).1.map Prod.fst ++ (processCore stock sku rows).2.1
        ++ (processCore stock sku rows).2.2.1).Perm rows := by
  induction rows generalizing stock with
  | nil => simp [processCore]
  | cons r rs ih =>
    obtain ⟨hlen, hf, hu, hm, hp⟩ := ih (stepRow stock sku r).1
    cases hout : (stepRow stock sku r).2 with
    | fulfillable ann =>
      simp only [processCore, hout]
      refine ⟨?_, ?_, ?_, ?_, ?_⟩
      · simp only [List.length_cons, List.length]
        omega
      · simpa using hf.cons₂ r
      · exact hu.cons r
      · exact hm.cons r
      · simpa using hp.cons r
    | unfulfillable =>
      simp only [processCore, hout]
      refine ⟨?_, ?_, ?_, ?_, ?_⟩
      · simp only [List.length_cons, List.length]
        omega
      · exact hf.cons r
      · exact hu.cons₂ r
      · exact hm.cons r
      · have hp1 : ((processCore (stepRow stock sku r).1 sku rs).1.map Prod.fst
            ++ ((processCore (stepRow stock sku r).1 sku rs).2.1
              ++ (processCore (stepRow stock sku r).1 sku rs).2.2.1)).Perm rs := by
          simpa [List.append_assoc] using hp
        have hp2 : ((processCore (stepRow stock sku r).1 sku rs).1.map Prod.fst
            ++ (r :: ((processCore (stepRow stock sku r).1 sku rs).2.1
              ++ (processCore (stepRow stock sku r).1 sku rs).2.2.1))).Perm (r :: rs) :=
          List.perm_middle.trans (hp1.cons r)
        simpa [List.append_assoc] using hp2
    | misc =>
      simp only [processCore, hout]
      refine ⟨?_, ?_, ?_, ?_, ?_⟩
      · simp only [List.length_cons, List.length]
        omega
      · exact hf.cons r
      · exact hu.cons r
      · exact hm.cons₂ r
      · have hp1 : (((processCore (stepRow stock sku r).1 sku rs).1.map Prod.fst
            ++ (processCore (stepRow stock sku r).1 sku rs).2.1)
            ++ (processCore (stepRow stock sku r).1 sku rs).2.2.1).Perm rs := hp
        have hp2 : (((processCore (stepRow stock sku r).1 sku rs).1.map Prod.fst
            ++ (processCore (stepRow stock sku r).1 sku rs).2.1)
            ++ (r :: (processCore (stepRow stock sku r).1 sku rs).2.2.1)).Perm (r :: rs) :=
          List.perm_middle.trans (hp1.cons r)
        simpa [List.append_assoc] using hp2

/-! Characterization of the label parser. -/

theorem parseToken_eq_none_iff (p : List Char) :
    parseToken p = none ↔ tokenBad p = true := by
  cases h : breakLastStar p with
  | none => simp [parseToken, tokenBad, h]
  | some bq =>
    simp only [parseToken, tokenBad, h]
    split_ifs with hq
    · simp [List.isEmpty_iff, hq.1, hq.2]
    · rcases Decidable.em (trim bq.2 = []) with he | he
      · simp [List.isEmpty_iff, he]
      · have hall : (trim bq.2).all Char.isDigit = false := by
          rcases Bool.eq_false_or_eq_true ((trim bq.2).all Char.isDigit) with ht | hf
          · exact absurd ⟨he, ht⟩ hq
          · exact hf
        simp [List.isEmpty_iff, he, hall]

theorem parseToken_eq_some_val (p : List Char) (h : tokenBad p = false) :
    parseToken p = some (tokenVal p) := by
  cases hb : breakLastStar p with
  | none => simp [tokenBad, hb] at h
  | some bq =>
    simp only [tokenBad, hb, Bool.or_eq_false_iff] at h
    have hne : trim bq.2 ≠ [] := by
      intro hc
      rw [hc] at h
      simp at h
    have hall : (trim bq.2).all Char.isDigit = true := by
      rcases Bool.eq_false_or_eq_true ((trim bq.2).all Char.isDigit) with ht | hf
      · exact ht
      · rw [hf] at h
        simp at h
    simp [parseToken, tokenVal, hb, hne, hall]

theorem parseTokens_eq_none_iff (ps : List (List Char)) :
    parseTokens ps = none ↔ ps.any tokenBad = true := by
  induction ps with
  | nil => simp [parseTokens]
  | cons p t ih =>
    cases h : parseToken p with
    | none =>
      have hb : tokenBad p = true := (parseToken_eq_none_iff p).mp h
      simp [parseTokens, h, hb]
    | some it =>
      have hb : tokenBad p = false := by
        rcases Bool.eq_false_or_eq_true (tokenBad p) with ht | hf
        · rw [(parseToken_eq_none_iff p).mpr ht] at h
          exact absurd h (by simp)
        · exact hf
      simp [parseTokens, h, hb, Option.map_eq_none', ih]

theorem parseTokens_eq_some_map (ps : List (List Char)) (h : ps.any tokenBad = false) :
    parseTokens ps = some (ps.map tokenVal) := by
  induction ps with
  | nil => rfl
  | cons p t ih =>
    simp only [List.any_cons, Bool.or_eq_false_iff] at h
    simp [parseTokens, parseToken_eq_some_val p h.1, ih h.2]

theorem splitComma_ne_nil (cs : List Char) : splitComma cs ≠ [] := by
  induction cs with
  | nil => simp [splitComma]
  | cons c t ih =>
    by_cases h : c = ','
    · subst h
      simp [splitComma]
    · cases hs : splitComma t with
      | nil => exact absurd hs ih
      | cons a b => simp [splitComma, h, hs]

theorem parseToken_some_nonneg (t : List Char) (it : String × Int)
    (h : parseToken t = some it) : 0 ≤ it.2 := by
  cases hb : breakLastStar t with
  | none => simp [parseToken, hb] at h
  | some bq =>
    obtain ⟨b, q⟩ := bq
    simp only [parseToken, hb] at h
    split_ifs at h with hq
    injection h with hv
    rw [← hv]
    exact Int.ofNat_nonneg _

theorem parseTokens_some_nonneg (ps : List (List Char)) (l : List (String × Int))
    (h : parseTokens ps = some l) : ∀ p ∈ l, 0 ≤ p.2 := by
  induction ps generalizing l with
  | nil =>
    simp only [parseTokens, Option.some.injEq] at h
    simp [← h]
  | cons t ts ih =>
    simp only [parseTokens] at h
    cases hpt : parseToken t with
    | none => rw [hpt] at h; simp at h
    | some it =>
      rw [hpt] at h
      cases hrest : parseTokens ts with
      | none => rw [hrest] at h; simp at h
      | some l2 =>
        rw [hrest] at h
        simp only [Option.map_some', Option.some.injEq] at h
        subst h
        intro p hp
        rcases List.mem_cons.mp hp with hhead | htail
        · rw [hhead]
          exact parseToken_some_nonneg t it hpt
        · exact ih l2 hrest p htail

/-- C3: label parsing is all-or-nothing: `parse_label` yields `[]` exactly
when the `[..]/[..]` header is absent, the content after it is empty, or
some comma-separated token lacks a `*` or has a quantity that is not one
or more decimal digits; in particular `"[x]/[y] 123*2, 456"` parses to
`[]` although its first token alone is valid; otherwise it returns the
stripped (barcode, quantity) pairs in token order. -/
theorem parse_all_or_nothing :
    (∀ label : String, parse_label label = [] ↔ labelBad label = true)
    ∧ parse_label "[x]/[y] 123*2, 456" = []
    ∧ ∀ (label : String) (g1 : List Char),
        matchHeader (trim label.data) = some g1 →
        labelBad label = false →
        parse_label label = ((splitComma (trim g1)).map trim).map tokenVal := by
  have hiff : ∀ label : String, parse_label label = [] ↔ labelBad label = true := by
    intro label
    cases hm : matchHeader (trim label.data) with
    | none => simp [parse_label, labelBad, hm]
    | some g1 =>
      simp only [parse_label, labelBad, hm]
      by_cases hc : trim g1 = []
      · simp [hc, List.isEmpty_iff]
      · rw [if_neg hc]
        cases ht : parseTokens ((splitComma (trim g1)).map trim) with
        | none =>
          have hany : ((splitComma (trim g1)).map trim).any tokenBad = true :=
            (parseTokens_eq_none_iff _).mp ht
          simp [List.isEmpty_iff, hc, hany]
        | some orders =>
          have hb : ((splitComma (trim g1)).map trim).any tokenBad = false := by
            rcases Bool.eq_false_or_eq_true (((splitComma (trim g1)).map trim).any tokenBad)
              with htr | hf
            · rw [(parseTokens_eq_none_iff _).mpr htr] at ht
              exact absurd ht (by simp)
            · exact hf
          have horders : orders = ((splitComma (trim g1)).map trim).map tokenVal := by
            have h2 := parseTokens_eq_some_map _ hb
            rw [ht] at h2
            injection h2
          have hne : orders ≠ [] := by
            rw [horders]
            simp only [ne_eq, List.map_eq_nil_iff, List.map_eq_nil_iff]
            exact splitComma_ne_nil _
          simp [List.isEmpty_iff, hc, hb, hne]
  refine ⟨hiff, by decide, ?_⟩
  intro label g1 hm hbad
  simp only [labelBad, hm, Bool.or_eq_false_iff] at hbad
  have hc : trim g1 ≠ [] := by
    intro hc
    rw [hc] at hbad
    simp at hbad
  simp only [parse_label, hm, if_neg hc,
    parseTokens_eq_some_map ((splitComma (trim g1)).map trim) hbad.2]

theorem parse_all_or_nothing_witness :
    parse_label "[a]/[b] 1*2, 3*4"
      = ((splitComma (trim ("1*2, 3*4").data)).map trim).map tokenVal :=
  parse_all_or_nothing.2.2 "[a]/[b] 1*2, 3*4" ("1*2, 3*4").data (by decide) (by decide)

/-- C8 is contradicted by the code: the quantity digits may be `"0"`, so a
parsed line item can carry quantity 0; label `"[x]/[y] 123*0"` parses
successfully to a single item of quantity 0, which is not ≥ 1. -/
theorem parse_label_qty_zero_counterexample :
    parse_label "[x]/[y] 123*0" = [("123", 0)]
    ∧ ¬ ∀ p ∈ parse_label "[x]/[y] 123*0", 1 ≤ p.2 := by
  refine ⟨by decide, ?_⟩
  intro h
  have := h ("123", 0) (by decide)
  simp at this

/-- C8 (amended): every (barcode, qty) pair produced by a successful parse
has a non-negative quantity (the digit string may be `"0"`, so qty ≥ 1
fails but qty ≥ 0 holds). -/
theorem parse_label_qty_nonneg (label : String) (p : String × Int)
    (hp : p ∈ parse_label label) : 0 ≤ p.2 := by
  cases hm : matchHeader (trim label.data) with
  | none => simp [parse_label, hm] at hp
  | some g1 =>
    simp only [parse_label, hm] at hp
    by_cases hc : trim g1 = []
    · rw [if_pos hc] at hp
      simp at hp
    · rw [if_neg hc] at hp
      cases ht : parseTokens ((splitComma (trim g1)).map trim) with
      | none => rw [ht] at hp; simp at hp
      | some orders =>
        rw [ht] at hp
        exact parseTokens_some_nonneg _ orders ht p hp

theorem parse_label_qty_nonneg_witness : (0 : Int) ≤ (("1" : String), (2 : Int)).2 :=
  parse_label_qty_nonneg "[a]/[b] 1*2" ("1", 2) (by decide)

/-! Lemmas about ledger lookups and updates. -/

theorem lookupL_isSome_iff {β : Type} (l : List (String × β)) (k : String) :
    (lookupL l k).isSome = true ↔ k ∈ l.map Prod.fst := by
  induction l with
  | nil => simp [lookupL]
  | cons e t ih =>
    by_cases h : e.1 = k
    · simp [lookupL, h]
    · have h2 : ¬(k = e.1) := fun hh => h hh.symm
      simp [lookupL, h, h2, ih]

theorem lookupL_eq_of_mem_nodup {β : Type} (l : List (String × β)) (e : String × β)
    (hnd : (l.map Prod.fst).Nodup) (he : e ∈ l) : lookupL l e.1 = some e.2 := by
  induction l with
  | nil => simp at he
  | cons a t ih =>
    simp only [List.map_cons, List.nodup_cons] at hnd
    rcases List.mem_cons.mp he with he2 | ht
    · rw [he2]
      simp [lookupL]
    · have hne : a.1 ≠ e.1 := by
        intro hh
        exact hnd.1 (hh ▸ List.mem_map.mpr ⟨e, ht, rfl⟩)
      simp [lookupL, hne, ih hnd.2 ht]

theorem lookupL_decOne (stock : Ledger) (bc k : String) (q : Int) :
    lookupL (decOne stock bc q) k
      = if k = bc then (lookupL stock k).map (fun v => v - q) else lookupL stock k := by
  induction stock with
  | nil =>
    simp only [decOne, List.map_nil, lookupL]
    split <;> rfl
  | cons e t ih =>
    have hstep : decOne (e :: t) bc q
        = (if e.1 = bc then (e.1, e.2 - q) else e) :: decOne t bc q := rfl
    rw [hstep]
    by_cases heb : e.1 = bc
    · by_cases hek : e.1 = k
      · have hkb : k = bc := hek.symm.trans heb
        simp [lookupL, hek, hkb]
      · have hkb : ¬(k = bc) := fun hh => hek (heb.trans hh.symm)
        have hbk : ¬(bc = k) := fun hh => hek (heb.trans hh)
        simp [lookupL, heb, hbk, hkb, ih]
    · by_cases hek : e.1 = k
      · have hkb : ¬(k = bc) := fun hh => heb (hek.trans hh)
        simp [lookupL, heb, hek, hkb]
      · simp [lookupL, heb, hek, ih]

theorem decOne_map_fst (stock : Ledger) (bc : String) (q : Int) :
    (decOne stock bc q).map Prod.fst = stock.map Prod.fst := by
  unfold decOne
  rw [List.map_map]
  apply List.map_congr_left
  intro a _
  by_cases h : a.1 = bc <;> simp [Function.comp, h]

theorem decAll_map_fst (orders : List (String × Int)) :
    ∀ stock : Ledger, (decAll stock orders).map Prod.fst = stock.map Prod.fst := by
  induction orders with
  | nil => intro stock; rfl
  | cons o t ih =>
    intro stock
    have hstep : decAll stock (o :: t) = decAll (decOne stock o.1 o.2) t := rfl
    rw [hstep, ih, decOne_map_fst]

theorem decOne_entries (stock : Ledger) (bc : String) (q v : Int)
    (hnd : (stock.map Prod.fst).Nodup) (hnn : entriesNonneg stock)
    (hl : lookupL stock bc = some v) (hq : q ≤ v) :
    entriesNonneg (decOne stock bc q) := by
  intro e he
  unfold decOne at he
  rcases List.mem_map.mp he with ⟨a, ha, hae⟩
  by_cases h : a.1 = bc
  · have hla : lookupL stock a.1 = some a.2 := lookupL_eq_of_mem_nodup stock a hnd ha
    rw [h, hl] at hla
    injection hla with hv
    rw [← hae, if_pos h]
    show 0 ≤ a.2 - q
    omega
  · rw [← hae, if_neg h]
    exact hnn a ha

theorem decAll_nonneg (orders : List (String × Int)) :
    ∀ stock : Ledger, (stock.map Prod.fst).Nodup → entriesNonneg stock →
    canFulfill stock orders = true → (orders.map Prod.fst).Nodup →
    entriesNonneg (decAll stock orders) := by
  induction orders with
  | nil => intro stock _ hnn _ _; exact hnn
  | cons o t ih =>
    intro stock hnd hnn hcf hond
    simp only [canFulfill, List.all_cons, Bool.and_eq_true] at hcf
    obtain ⟨ho, ht⟩ := hcf
    cases hl : lookupL stock o.1 with
    | none => rw [hl] at ho; simp at ho
    | some v =>
      rw [hl] at ho
      have hqv : o.2 ≤ v := by simpa using ho
      simp only [List.map_cons, List.nodup_cons] at hond
      have h1 : entriesNonneg (decOne stock o.1 o.2) :=
        decOne_entries stock o.1 o.2 v hnd hnn hl hqv
      have h2 : ((decOne stock o.1 o.2).map Prod.fst).Nodup := by
        rw [decOne_map_fst]
        exact hnd
      have h3 : canFulfill (decOne stock o.1 o.2) t = true := by
        simp only [canFulfill, List.all_eq_true] at ht ⊢
        intro p hp
        have hne : p.1 ≠ o.1 := by
          intro hh
          exact hond.1 (hh ▸ List.mem_map.mpr ⟨p, hp, rfl⟩)
        rw [lookupL_decOne, if_neg hne]
        exact ht p hp
      exact ih (decOne stock o.1 o.2) h2 h1 h3 hond.2

theorem stepRow_preserves (stock : Ledger) (sku : SkuMap) (row : Row)
    (hnd : (stock.map Prod.fst).Nodup) (hnn : entriesNonneg stock)
    (hrow : ((parse_label row.custom_label).map Prod.fst).Nodup) :
    entriesNonneg (stepRow stock sku row).1
    ∧ ((stepRow stock sku row).1.map Prod.fst).Nodup := by
  simp only [stepRow]
  split_ifs with h1 h2 h3
  · exact ⟨hnn, hnd⟩
  · exact ⟨hnn, hnd⟩
  · refine ⟨decAll_nonneg _ stock hnd hnn h3 hrow, ?_⟩
    show ((decAll stock (parse_label row.custom_label)).map Prod.fst).Nodup
    rw [decAll_map_fst]
    exact hnd
  · exact ⟨hnn, hnd⟩

theorem processCore_stock_cons (stock : Ledger) (sku : SkuMap) (r : Row) (rs : List Row) :
    (processCore stock sku (r :: rs)).2.2.2
      = (processCore (stepRow stock sku r).1 sku rs).2.2.2 := by
  cases hout : (stepRow stock sku r).2 <;> simp [processCore, hout]

/-- C1 (amended): the fulfillability check tests each line item separately
against the current ledger, so provided every processed row's parsed line
items carry pairwise-distinct barcodes (and the ledger starts with
distinct keys and non-negative quantities), the stock ledger stays
non-negative at every point of the run; with a barcode repeated inside
one row the check does not add up the joint demand and the ledger can go
negative. -/
theorem ledger_stays_nonneg (stock : Ledger) (sku : SkuMap) (rows : List Row)
    (hnd : (stock.map Prod.fst).Nodup) (hnn : entriesNonneg stock)
    (hrows : ∀ r ∈ rows, ((parse_label r.custom_label).map Prod.fst).Nodup) :
    ∀ n : Nat, entriesNonneg ((processCore stock sku (rows.take n)).2.2.2) := by
  induction rows generalizing stock with
  | nil =>
    intro n
    rw [List.take_nil]
    exact hnn
  | cons r rs ih =>
    intro n
    cases n with
    | zero => exact hnn
    | succ m =>
      rw [List.take_succ_cons, processCore_stock_cons]
      have hstep := stepRow_preserves stock sku r hnd hnn (hrows r (List.mem_cons_self r rs))
      exact ih (stepRow stock sku r).1 hstep.2 hstep.1
        (fun x hx => hrows x (List.mem_cons_of_mem r hx)) m

theorem ledger_stays_nonneg_witness :
    entriesNonneg ((processCore [("1", 5)] [("1", "S")]
      ([(⟨0, "[a]/[b] 1*3"⟩ : Row)].take 1)).2.2.2) :=
  ledger_stays_nonneg [("1", 5)] [("1", "S")] [⟨0, "[a]/[b] 1*3"⟩]
    (by decide) (by decide) (by decide) 1

/-- C1 as stated is contradicted by the code: with stock `{"1": 5}` a row
whose label demands `1*3, 1*3` (joint demand 6) passes the per-item check,
is classified Fulfillable, and drives the ledger to −1. -/
theorem dup_barcode_negative_counterexample :
    stepRow [("1", 5)] [("1", "")] ⟨0, "[a]/[b] 1*3, 1*3"⟩
      = ([("1", -1)], Outcome.fulfillable "*3, *3")
    ∧ ¬ entriesNonneg [("1", (-1 : Int))] := by
  exact ⟨by decide, by decide⟩

/-- C5: reservation is greedy and order-dependent: starting from ledger
`{A: 5}` with a digit-leading barcode `A`, two rows in sequence whose
labels each parse to a demand of `A*3` end with the first row Fulfillable,
the ledger at `{A: 2}` after the first row, and the second row
Unfulfillable. -/
theorem greedy_order_dependent (A : String) (lbl : String) (sku : SkuMap)
    (hparse : parse_label lbl = [(A, 3)]) (hdig : firstIsDigit A = true) :
    processCore [(A, 5)] sku [⟨1, lbl⟩, ⟨2, lbl⟩]
      = ([(⟨1, lbl⟩, mkAnn sku [(A, 3)])], [⟨2, lbl⟩], [], [(A, 2)])
    ∧ (processCore [(A, 5)] sku [⟨1, lbl⟩]).2.2.2 = [(A, 2)] := by
  have hcf1 : canFulfill [(A, 5)] [(A, 3)] = true := by
    simp [canFulfill, lookupL]
  have hdec : decAll [(A, 5)] [(A, 3)] = [(A, 2)] := by
    simp [decAll, decOne]
  have hcf2 : canFulfill [(A, 2)] [(A, 3)] = false := by
    simp [canFulfill, lookupL]
  have hstep1 : stepRow [(A, 5)] sku ⟨1, lbl⟩
      = ([(A, 2)], Outcome.fulfillable (mkAnn sku [(A, 3)])) := by
    simp only [stepRow, hparse]
    rw [if_neg (by simp), if_neg (by simp [hdig]), if_pos hcf1, hdec]
  have hstep2 : stepRow [(A, 2)] sku ⟨2, lbl⟩ = ([(A, 2)], Outcome.unfulfillable) := by
    simp only [stepRow, hparse]
    rw [if_neg (by simp), if_neg (by simp [hdig]), if_neg (by simp [hcf2])]
  constructor
  · simp [processCore, hstep1, hstep2]
  · simp [processCore, hstep1]

theorem greedy_order_dependent_witness :
    processCore [("7", 5)] [] [⟨1, "[x]/[y] 7*3"⟩, ⟨2, "[x]/[y] 7*3"⟩]
      = ([(⟨1, "[x]/[y] 7*3"⟩, mkAnn [] [("7", 3)])], [⟨2, "[x]/[y] 7*3"⟩], [], [("7", 2)])
    ∧ (processCore [("7", 5)] [] [⟨1, "[x]/[y] 7*3"⟩]).2.2.2 = [("7", 2)] :=
  greedy_order_dependent "7" "[x]/[y] 7*3" [] (by decide) (by decide)

/-! Lemmas about the key sets of the two loaded dictionaries. -/

theorem insertL_map_fst {β : Type} (l : List (String × β)) (k : String) (v : β) :
    (insertL l k v).map Prod.fst
      = if (lookupL l k).isSome then l.map Prod.fst else l.map Prod.fst ++ [k] := by
  unfold insertL
  split_ifs with h
  · rw [List.map_map]
    apply List.map_congr_left
    intro a _
    by_cases hk : a.1 = k <;> simp [Function.comp, hk]
  · simp

theorem insertL_keys_eq {β γ : Type} (l1 : List (String × β)) (l2 : List (String × γ))
    (k : String) (v : β) (w : γ) (h : l1.map Prod.fst = l2.map Prod.fst) :
    (insertL l1 k v).map Prod.fst = (insertL l2 k w).map Prod.fst := by
  have hiff : (lookupL l1 k).isSome = true ↔ (lookupL l2 k).isSome = true := by
    rw [lookupL_isSome_iff, lookupL_isSome_iff, h]
  have hsome : (lookupL l1 k).isSome = (lookupL l2 k).isSome := by
    cases hb1 : (lookupL l1 k).isSome with
    | true => exact (hiff.mp hb1).symm
    | false =>
      cases hb2 : (lookupL l2 k).isSome with
      | true => exact absurd (hiff.mpr hb2) (by rw [hb1]; simp)
      | false => rfl
  rw [insertL_map_fst, insertL_map_fst, h, hsome]

theorem loadAux_keys (items : List Item) :
    ∀ acc : Ledger × SkuMap, acc.1.map Prod.fst = acc.2.map Prod.fst →
    (items.foldl loadStep acc).1.map Prod.fst
      = (items.foldl loadStep acc).2.map Prod.fst := by
  induction items with
  | nil => intro acc h; exact h
  | cons it t ih =>
    intro acc h
    rw [List.foldl_cons]
    apply ih
    obtain ⟨ob, qty, sk⟩ := it
    cases ob with
    | none => exact h
    | some b =>
      simp only [loadStep]
      by_cases hb : b = ""
      · rw [if_neg (by simp [hb])]
        exact h
      · rw [if_pos hb]
        exact insertL_keys_eq acc.1 acc.2 b qty sk h

theorem loadInv_keys (items : List Item) :
    (loadInv items).1.map Prod.fst = (loadInv items).2.map Prod.fst :=
  loadAux_keys items ([], []) rfl

theorem processCore_ful_lookup (rows : List Row) :
    ∀ (stock : Ledger) (sku : SkuMap), stock.map Prod.fst = sku.map Prod.fst →
    ∀ (r : Row) (ann : String), (r, ann) ∈ (processCore stock sku rows).1 →
    ∀ p ∈ parse_label r.custom_label, lookupL sku p.1 ≠ none := by
  induction rows with
  | nil =>
    intro stock sku _ r ann h
    simp [processCore] at h
  | cons r0 rs ih =>
    intro stock sku hkeys r ann hmem p hp
    have hkeys2 : (stepRow stock sku r0).1.map Prod.fst = sku.map Prod.fst := by
      rcases stepRow_stock_cases stock sku r0 with h | h
      · rw [h, decAll_map_fst]
        exact hkeys
      · rw [h]
        exact hkeys
    cases hout : (stepRow stock sku r0).2 with
    | fulfillable ann0 =>
      have hexp : (processCore stock sku (r0 :: rs)).1
          = (r0, ann0) :: (processCore (stepRow stock sku r0).1 sku rs).1 := by
        simp [processCore, hout]
      rw [hexp] at hmem
      rcases List.mem_cons.mp hmem with hhead | htail
      · have hstep : stepRow stock sku r0
            = ((stepRow stock sku r0).1, Outcome.fulfillable ann0) := by
          rw [← hout]
        have hcf := (stepRow_fulfillable_inv stock sku r0 _ ann0 hstep).1
        injection hhead with hr hann
        have hps : (lookupL stock p.1).isSome = true := by
          simp only [canFulfill, List.all_eq_true] at hcf
          have hcp := hcf p (hr ▸ hp)
          cases hl : lookupL stock p.1 with
          | none => rw [hl] at hcp; simp at hcp
          | some v => simp
        have hkey : p.1 ∈ sku.map Prod.fst := by
          rw [← hkeys]
          exact (lookupL_isSome_iff stock p.1).mp hps
        intro hnone
        have hcontra := (lookupL_isSome_iff sku p.1).mpr hkey
        rw [hnone] at hcontra
        simp at hcontra
      · exact ih (stepRow stock sku r0).1 sku hkeys2 r ann htail p hp
    | unfulfillable =>
      have hexp : (processCore stock sku (r0 :: rs)).1
          = (processCore (stepRow stock sku r0).1 sku rs).1 := by
        simp [processCore, hout]
      rw [hexp] at hmem
      exact ih (stepRow stock sku r0).1 sku hkeys2 r ann hmem p hp
    | misc =>
      have hexp : (processCore stock sku (r0 :: rs)).1
          = (processCore (stepRow stock sku r0).1 sku rs).1 := by
        simp [processCore, hout]
      rw [hexp] at hmem
      exact ih (stepRow stock sku r0).1 sku hkeys2 r ann hmem p hp

/-- C10: in any run starting from a loaded inventory, the `stock` and
`sku_dict` dictionaries hold exactly the same barcodes, and every barcode
of a row emitted as Fulfillable is present in `sku_dict`, so the
`"UNKNOWN"` fallback of the SKU lookup is never taken. -/
theorem fulfillable_sku_lookup_never_missing (items : List Item) (rows : List Row)
    (r : Row) (ann : String)
    (hmem : (r, ann) ∈ (processCore (loadInv items).1 (loadInv items).2 rows).1) :
    ∀ p ∈ parse_label r.custom_label, lookupL (loadInv items).2 p.1 ≠ none :=
  processCore_ful_lookup rows (loadInv items).1 (loadInv items).2 (loadInv_keys items)
    r ann hmem

theorem fulfillable_sku_lookup_never_missing_witness :
    lookupL (loadInv [⟨some "1", 5, "S"⟩]).2 "1" ≠ none :=
  fulfillable_sku_lookup_never_missing [⟨some "1", 5, "S"⟩] [⟨0, "[a]/[b] 1*2"⟩]
    ⟨0, "[a]/[b] 1*2"⟩ "S*2" (by decide) ("1", 2) (by decide)

end V5App
